import Mathlib

/-!
# Verification of the pyside-docset-generator crawler (`src/main.py`)

A shallow embedding of the single-file crawler:

* Python strings are Lean `String`s (a wrapper around `List Char` in this
  toolchain), and the `str` / `os.path` operations used by the source are
  embedded as executable functions on character lists.
* The parsed HTML documents handled through BeautifulSoup are embedded as
  rose trees (`Node`), and the tree operations the source performs
  (`find`, `find_all`, `extract`, `replaceWithChildren`, attribute
  access) are embedded as recursive tree functions.
* The network (`urllib.request.urlopen`) is an oracle parameter
  `String → UrlResult`; BeautifulSoup's text parser is an oracle
  parameter `String → List Node`.  The sqlite table and the output
  directory are explicit state (`List Entry` and a write log).
-/

namespace Docset

/-! ## String utilities (embedding of the Python `str` / `os.path` calls) -/

/-- `l.split(sep)` for a single-character separator, Python semantics:
the result is always non-empty and separators are not kept. -/
def splitChar (sep : Char) : List Char → List (List Char)
  | [] => [[]]
  | c :: cs =>
    if c = sep then [] :: splitChar sep cs
    else
      match splitChar sep cs with
      | [] => [[c]]
      | t :: ts => (c :: t) :: ts

/-- `sep.join(xs)` for a single-character separator. -/
def joinChar (sep : Char) : List (List Char) → List Char
  | [] => []
  | [x] => x
  | x :: xs => x ++ sep :: joinChar sep xs

/-- Python `needle in hay` on strings (substring containment). -/
def containsSubL (needle hay : List Char) : Bool :=
  needle.isPrefixOf hay ||
    match hay with
    | [] => false
    | _ :: t => containsSubL needle t

/-- Python `needle in hay` on strings. -/
def inStr (needle hay : String) : Bool :=
  containsSubL needle.data hay.data

/-- The scan of Python `l.replace(pat, rep)`: at a match emit `rep`
and pass over the matched characters (`skip` counts those still to be
passed over — matching never resumes inside a replaced span, making the
replacement non-overlapping and left-to-right). -/
def replaceGo (pat rep : List Char) (skip : Nat) : List Char → List Char
  | [] => []
  | c :: cs =>
    match skip with
    | Nat.succ k => replaceGo pat rep k cs
    | 0 =>
      if pat.isPrefixOf (c :: cs) then rep ++ replaceGo pat rep (pat.length - 1) cs
      else c :: replaceGo pat rep 0 cs

/-- Python `l.replace(pat, rep)`: replace every (non-overlapping,
left-to-right) occurrence.  For an empty pattern the input is returned
unchanged (the source only ever uses non-empty literal patterns). -/
def replaceL (pat rep : List Char) (l : List Char) : List Char :=
  if pat = [] then l else replaceGo pat rep 0 l

/-- Python `s.replace(pat, rep)` on strings. -/
def strReplace (s pat rep : String) : String :=
  ⟨replaceL pat.data rep.data s.data⟩

/-- Python `s.split("/")[-1]` (also `os.path.basename`): the final
`/`-separated segment. -/
def lastSeg (s : String) : String :=
  ⟨(splitChar '/' s.data).getLastD []⟩

/-- Python `s.split("#")[0]`: everything before the first `#`. -/
def stripFragment (s : String) : String :=
  ⟨(splitChar '#' s.data).headD []⟩

/-- Python `s.startswith(pre)` (also how `re.search("^lit", s)` behaves
for a literal pattern `lit`). -/
def beginsWith (pre s : String) : Bool :=
  pre.data.isPrefixOf s.data

/-- Python `s.endswith(suf)`. -/
def endswith (s suf : String) : Bool :=
  suf.data.isSuffixOf s.data

/-- Python `str(x)` applied to an optional string: `None` prints as
`"None"` (the source formats `tag.string` straight into `"%s"`). -/
def pyStr : Option String → String
  | some s => s
  | none => "None"

/-! ## `os.path` (POSIX flavour, as used by `clean_links`) -/

/-- `os.path.dirname`: everything up to the last `/`, with trailing
slashes stripped unless the head consists only of slashes. -/
def dirname (p : String) : String :=
  let head := (p.data.reverse.dropWhile (fun c => !(c == '/'))).reverse
  if head.isEmpty || head.all (fun c => c == '/') then ⟨head⟩
  else ⟨(head.reverse.dropWhile (fun c => c == '/')).reverse⟩

/-- The number of leading slashes `posixpath.normpath` preserves:
two slashes are kept as-is, one or three-and-more collapse to one. -/
def normSlashes (l : List Char) : Nat :=
  if l.head? = some '/' then
    if l.take 3 = ['/', '/', '/'] then 1
    else if l.take 2 = ['/', '/'] then 2
    else 1
  else 0

/-- The component loop of `posixpath.normpath`: drop empty and `.`
components, let `..` pop a previous component (except at the root of an
absolute path, or when there is nothing left to pop in a relative
path). -/
def normFold (isAbs : Bool) (comps : List (List Char)) : List (List Char) :=
  comps.foldl
    (fun acc comp =>
      if comp = [] ∨ comp = ['.'] then acc
      else if comp ≠ ['.', '.'] ∨ (isAbs = false ∧ acc = []) ∨ acc.getLast? = some ['.', '.'] then
        acc ++ [comp]
      else if acc ≠ [] then acc.dropLast
      else acc)
    []

/-- `posixpath.normpath`. -/
def normpath (p : String) : String :=
  if p.data = [] then "."
  else
    let k := normSlashes p.data
    let comps := normFold (decide (0 < k)) (splitChar '/' p.data)
    let joined := List.replicate k '/' ++ joinChar '/' comps
    if joined = [] then "." else ⟨joined⟩

/-- `posixpath.join` restricted to two components (all `abspath` needs). -/
def joinPath (a b : String) : String :=
  if b.data.head? = some '/' then b
  else if a.data = [] ∨ a.data.getLast? = some '/' then a ++ b
  else a ++ "/" ++ b

/-- `os.path.abspath` with the working directory made explicit:
relative paths are joined onto `cwd`, then normalised. -/
def abspath (cwd p : String) : String :=
  if p.data.head? = some '/' then normpath p
  else normpath (joinPath cwd p)

/-! ## The index store (`init_database` / `insert_entry`)

The sqlite table `searchIndex(id, name, type, path)` carries a unique
index over `(name, type, path)`; `INSERT OR IGNORE` appends a fresh row
unless an identical triple is already present.  The `id` column is a
row number and carries no information, so a row is the triple. -/

structure Entry where
  name : String
  type : String
  path : String
deriving DecidableEq, Repr

/-- `init_database`: drop and recreate the table — the table is empty. -/
def init_database : List Entry := []

/-- `insert_entry`: `INSERT OR IGNORE` under the unique index on
`(name, type, path)` — a duplicate triple is a silent no-op, a new
triple is appended at the end of the table. -/
def insert_entry (table : List Entry) (e : Entry) : List Entry :=
  if e ∈ table then table else table ++ [e]

/-! ## Class-name classification (`parse_class_page`, lines 237–244) -/

/-- The naming-suffix heuristic choosing the entry type of a class page. -/
def classifyType (class_name : String) : String :=
  if endswith class_name "Event" then "Event"
  else if endswith class_name "Interface" then "Interface"
  else if endswith class_name "Enum" then "Enum"
  else "Class"

/-! ## The document tree (BeautifulSoup embedding)

A parsed document is a list of nodes; a `Tag` is an element with a tag
name, an attribute list and children, a `NavigableString` is a text
node.  HTML entity escaping is not modelled (none of the strings in
scope contain markup characters). -/

inductive Node where
  | elem (tag : String) (attrs : List (String × String)) (children : List Node)
  | text (s : String)

/-- `tag.get(name)` / `tag[name]` lookup (attribute names are unique). -/
def getAttr (attrs : List (String × String)) (key : String) : Option String :=
  match attrs.find? (fun kv => kv.1 == key) with
  | some kv => some kv.2
  | none => none

/-- `tag[name] = value`, keeping the attribute order. -/
def setAttr (attrs : List (String × String)) (key value : String) : List (String × String) :=
  attrs.map (fun kv => if kv.1 == key then (kv.1, value) else kv)

/- `tag.string`: the single string beneath a tag, if it is unique
(recursing through a unique element child, as BeautifulSoup does). -/
mutual

def nodeString : Node → Option String
  | .text s => some s
  | .elem _ _ ch => nodeStringL ch

def nodeStringL : List Node → Option String
  | [c] => nodeString c
  | _ => none

end

/- The concatenated text content of a node / of a forest, in document
order (as a character list, the shape the proofs use). -/
mutual

def textContentN : Node → List Char
  | .text s => s.data
  | .elem _ _ ch => textContentL ch

def textContentL : List Node → List Char
  | [] => []
  | n :: ns => textContentN n ++ textContentL ns

end

/- `str(node)`: serialize back to markup (uniform `<tag attrs>…</tag>`
form; entity escaping and void-element self-closing are not
modelled). -/
mutual

def serializeN : Node → String
  | .text s => s
  | .elem t a ch =>
    "<" ++ t ++ String.join (a.map (fun kv => " " ++ kv.1 ++ "=\x22" ++ kv.2 ++ "\x22")) ++ ">"
      ++ serializeL ch ++ "</" ++ t ++ ">"

def serializeL : List Node → String
  | [] => ""
  | n :: ns => serializeN n ++ serializeL ns

end

def serializeNode (n : Node) : String := serializeN n

/-- BeautifulSoup `class_="q"` matching: for the multi-valued `class`
attribute a match is a whitespace-separated word equal to `q`, or the
whole attribute string equal to `q` (the form BeautifulSoup falls back
to when `q` itself contains spaces). -/
def classMatches (q : String) (attrs : List (String × String)) : Bool :=
  match getAttr attrs "class" with
  | none => false
  | some v => ((splitChar ' ' v.data).filter (fun l => !l.isEmpty)).contains q.data || v == q

/-- Node predicates used by the `find` / `find_all` calls in the source. -/
def isTagNamed (t : String) : Node → Bool
  | .elem tg _ _ => tg == t
  | .text _ => false

def isElemClass (t q : String) : Node → Bool
  | .elem tg a _ => tg == t && classMatches q a
  | .text _ => false

def hasId (i : String) : Node → Bool
  | .elem _ a _ => getAttr a "id" == some i
  | .text _ => false

/- `find`: first node matching the predicate, pre-order over the
descendants of the searched element (a node is tested before its
children). -/
mutual

def findNodeN (p : Node → Bool) : Node → Option Node
  | .text s => if p (.text s) then some (.text s) else none
  | .elem t a ch =>
    if p (.elem t a ch) then some (.elem t a ch) else findNodeL p ch

def findNodeL (p : Node → Bool) : List Node → Option Node
  | [] => none
  | n :: ns =>
    match findNodeN p n with
    | some m => some m
    | none => findNodeL p ns

end

/- `find_all`: every node matching the predicate, pre-order. -/
mutual

def findAllN (p : Node → Bool) : Node → List Node
  | .text s => if p (.text s) then [.text s] else []
  | .elem t a ch =>
    (if p (.elem t a ch) then [.elem t a ch] else []) ++ findAllL p ch

def findAllL (p : Node → Bool) : List Node → List Node
  | [] => []
  | n :: ns => findAllN p n ++ findAllL p ns

end

/- `tag.extract()` applied to the first pre-order match: remove it from
the forest.  `none` when nothing matches (the source would have crashed
on the preceding `find` / indexing). -/
mutual

def extractFirstN (p : Node → Bool) : Node → Option Node
  | .text _ => none
  | .elem t a ch =>
    match extractFirstL p ch with
    | some ch2 => some (.elem t a ch2)
    | none => none

def extractFirstL (p : Node → Bool) : List Node → Option (List Node)
  | [] => none
  | n :: ns =>
    if p n then some ns
    else
      match extractFirstN p n with
      | some n2 => some (n2 :: ns)
      | none =>
        match extractFirstL p ns with
        | some ns2 => some (n :: ns2)
        | none => none

end

/- Replace the first pre-order match by a given node (used to place a
locally rewritten subtree back into its document). -/
mutual

def replaceFirstN (p : Node → Bool) (new : Node) : Node → Option Node
  | .text s => if p (.text s) then some new else none
  | .elem t a ch =>
    if p (.elem t a ch) then some new
    else
      match replaceFirstOpt p new ch with
      | some ch2 => some (.elem t a ch2)
      | none => none

def replaceFirstOpt (p : Node → Bool) (new : Node) : List Node → Option (List Node)
  | [] => none
  | n :: ns =>
    match replaceFirstN p new n with
    | some n2 => some (n2 :: ns)
    | none =>
      match replaceFirstOpt p new ns with
      | some ns2 => some (n :: ns2)
      | none => none

end

def replaceFirstL (p : Node → Bool) (new : Node) (ns : List Node) : List Node :=
  (replaceFirstOpt p new ns).getD ns

def childrenOf : Node → List Node
  | .elem _ _ ch => ch
  | .text _ => []

def attrsOf : Node → List (String × String)
  | .elem _ a _ => a
  | .text _ => []

/-! ## The link rewriter (`clean_links`, lines 57–66) -/

/-- `re.compile("^../")` applied by `find_all` to an `href` value:
the regex is searched (anchored by `^`), and each `.` matches any
character other than a newline — so the condition is “at least three
characters and the third is `/`”, not “starts with `../`”. -/
def hrefMatches (s : String) : Bool :=
  match s.data with
  | c0 :: c1 :: c2 :: _ => c0 != '\n' && c1 != '\n' && c2 == '/'
  | _ => false

/-- The resolved target of a traversing link:
`os.path.abspath("%s/%s" % (os.path.dirname(current_url), href))`. -/
def resolvedTarget (cwd current_url href : String) : String :=
  abspath cwd (dirname current_url ++ "/" ++ href)

/-- The in-scope test of `clean_links`:
`"PySide2" in os.path.abspath(...)`. -/
def insideDoc (cwd current_url href : String) : Bool :=
  inStr "PySide2" (resolvedTarget cwd current_url href)

/- `clean_links(body, current_url)` on one node / on a forest.  A
matched `a`/`area` either has its `href` flattened to the last segment
of the original `href` (in-scope target) or is unwrapped, its children
kept in place (`replaceWithChildren`).  The matched tags are collected
up-front by `find_all` and mutated in document order, which is
equivalent to this compositional recursion. -/
mutual

def cleanNode (cwd current_url : String) : Node → List Node
  | .text s => [.text s]
  | .elem t a ch =>
    let ch2 := cleanList cwd current_url ch
    if t == "a" || t == "area" then
      match getAttr a "href" with
      | some h =>
        if hrefMatches h then
          if insideDoc cwd current_url h then
            [.elem t (setAttr a "href" (lastSeg h)) ch2]
          else
            ch2
        else [.elem t a ch2]
      | none => [.elem t a ch2]
    else [.elem t a ch2]

def cleanList (cwd current_url : String) : List Node → List Node
  | [] => []
  | n :: ns => cleanNode cwd current_url n ++ cleanList cwd current_url ns

end

/-- `clean_links` itself runs on an element (the `bodywrapper` div):
`find_all` only visits descendants, so the element keeps its own tag
and attributes. -/
def cleanBody (cwd current_url : String) : Node → Node
  | .elem t a ch => .elem t a (cleanList cwd current_url ch)
  | .text s => .text s

/- The `href` values of all `a`/`area` elements, pre-order. -/
mutual

def collectHrefsN : Node → List String
  | .text _ => []
  | .elem t a ch =>
    (if t == "a" || t == "area" then
       match getAttr a "href" with
       | some h => [h]
       | none => []
     else []) ++ collectHrefs ch

def collectHrefs : List Node → List String
  | [] => []
  | n :: ns => collectHrefsN n ++ collectHrefs ns

end

/- The attribute lists of all `a` elements, pre-order (the shape the
root-page post-pass cares about). -/
mutual

def collectAnchorsN : Node → List (List (String × String))
  | .text _ => []
  | .elem t a ch =>
    (if t == "a" then [a] else []) ++ collectAnchors ch

def collectAnchors : List Node → List (List (String × String))
  | [] => []
  | n :: ns => collectAnchorsN n ++ collectAnchors ns

end

/- `true` when no `a`/`area` element has an `href` matched by
`re.compile("^../")`. -/
mutual

def noMatchedHrefN : Node → Bool
  | .text _ => true
  | .elem t a ch =>
    (if t == "a" || t == "area" then
       match getAttr a "href" with
       | some h => !hrefMatches h
       | none => true
     else true) && noMatchedHref ch

def noMatchedHref : List Node → Bool
  | [] => true
  | n :: ns => noMatchedHrefN n && noMatchedHref ns

end

/-! ## The inheritance-link rewrite (`parse_class_page`, lines 202–209)

`body.find("strong", text="Inherited by:")` locates the first `strong`
tag whose `.string` is the given text, pre-order; its following
siblings that are `a` tags then have any `#fragment` stripped from
their `href` (`link["href"].split("#")[0]`; a missing `href` raises
`KeyError`). -/

inductive Found where
  | no
  | here
  | deep
deriving DecidableEq

/-- Strip fragments from the `a` tags of a sibling list
(`find_next_siblings("a")` plus the `href` assignment). -/
def stripAnchorsL : List Node → Except String (List Node)
  | [] => .ok []
  | .elem t a ch :: ns =>
    if t == "a" then
      match getAttr a "href" with
      | none => .error "KeyError: href"
      | some h =>
        match stripAnchorsL ns with
        | .error e => .error e
        | .ok ns2 => .ok (.elem t (setAttr a "href" (stripFragment h)) ch :: ns2)
    else
      match stripAnchorsL ns with
      | .error e => .error e
      | .ok ns2 => .ok (.elem t a ch :: ns2)
  | .text s :: ns =>
    match stripAnchorsL ns with
    | .error e => .error e
    | .ok ns2 => .ok (.text s :: ns2)

mutual

def inhNode : Node → Except String (Node × Found)
  | .text s => .ok (.text s, .no)
  | .elem t a ch =>
    if t == "strong" && nodeString (.elem t a ch) == some "Inherited by:" then
      .ok (.elem t a ch, .here)
    else
      match inhList ch with
      | .error e => .error e
      | .ok (ch2, fd) => .ok (.elem t a ch2, if fd = .no then .no else .deep)

def inhList : List Node → Except String (List Node × Found)
  | [] => .ok ([], .no)
  | n :: ns =>
    match inhNode n with
    | .error e => .error e
    | .ok (n2, .here) =>
      match stripAnchorsL ns with
      | .error e => .error e
      | .ok ns2 => .ok (n2 :: ns2, .deep)
    | .ok (n2, .deep) => .ok (n2 :: ns, .deep)
    | .ok (n2, .no) =>
      match inhList ns with
      | .error e => .error e
      | .ok (ns2, fd) => .ok (n2 :: ns2, fd)

end

/-! ## The root-page post-pass (`main`, lines 299–305)

`main_page_body.find("a", href=re.compile(slug)).replaceWithChildren()`:
the first `a` element (pre-order) whose `href` contains the slug is
unwrapped.  (`re.compile(slug)` is searched, i.e. substring
containment, for the metacharacter-free module slugs in scope.)
`find` returning `None` makes the source crash with `AttributeError`. -/

def anchorHrefContains (slug : String) : Node → Bool
  | .elem t a _ =>
    t == "a" &&
      (match getAttr a "href" with
       | some h => inStr slug h
       | none => false)
  | .text _ => false

/- Unwrap the first pre-order `a` whose `href` contains `slug`;
`none` when no anchor matches.  The node-level function returns the
node list that replaces the node. -/
mutual

def unwrapFirstN (slug : String) : Node → Option (List Node)
  | .text _ => none
  | .elem t a ch =>
    if anchorHrefContains slug (.elem t a ch) then some ch
    else
      match unwrapFirstL slug ch with
      | some ch2 => some [.elem t a ch2]
      | none => none

def unwrapFirstL (slug : String) : List Node → Option (List Node)
  | [] => none
  | n :: ns =>
    match unwrapFirstN slug n with
    | some repl => some (repl ++ ns)
    | none =>
      match unwrapFirstL slug ns with
      | some ns2 => some (n :: ns2)
      | none => none

end

/-- The whole post-pass loop over `modules_in_404`. -/
def unwrapAll : List String → List Node → Option (List Node)
  | [], ns => some ns
  | slug :: slugs, ns =>
    match unwrapFirstL slug ns with
    | none => none
    | some ns2 => unwrapAll slugs ns2

/-! ## The fetcher (`do_request`, lines 69–80)

`urllib.request.urlopen` either delivers a body, or raises
`urllib.error.HTTPError` for an HTTP error status (404, 500), or raises
some other exception (`urllib.error.URLError` on a network-level
failure).  The `except` clause of `do_request` (and of
`download_file`) names only `HTTPError`; anything else propagates. -/

inductive UrlResult where
  | ok (body : String)
  | httpError (code : Nat)
  | otherError (msg : String)
deriving DecidableEq

/-- The remote site: what `urlopen` does for each URL. -/
def Oracle := String → UrlResult

/-- BeautifulSoup's text-to-tree parser, `BeautifulSoup(html, "html.parser")`. -/
def Parser := String → List Node

/-- `do_request`: a parsed tree on success, `None` on `HTTPError`, an
uncaught exception (`.error`) otherwise. -/
def do_request (p : Parser) (f : Oracle) (url : String) : Except String (Option (List Node)) :=
  match f url with
  | .ok body => .ok (some (p body))
  | .httpError _ => .ok none
  | .otherError e => .error e

/-! ## The page renderer (`HTML_TEMPLATE` / `save_page`, lines 11–24, 83–92) -/

def HTML_TEMPLATE_HEAD : String :=
  "\n    <!DOCTYPE html>\n    <html lang=\x22en\x22>\n        <head>\n            <title>"

def HTML_TEMPLATE_MID : String :=
  "</title>\n            <meta charset=\x22UTF-8\x22>\n            <meta name=\x22viewport\x22 content=\x22width=device-width, initial-scale=1\x22>\n            <link href=\x22main.css\x22 rel=\x22stylesheet\x22>\n        </head>\n        <body>\n            "

def HTML_TEMPLATE_TAIL : String :=
  "\n        </body>\n    </html>\n"

/-- `HTML_TEMPLATE % (title, html)`. -/
def htmlTemplate (title html : String) : String :=
  HTML_TEMPLATE_HEAD ++ title ++ HTML_TEMPLATE_MID ++ html ++ HTML_TEMPLATE_TAIL

/-- The `Documents` output directory as a write log: a later write of
the same name shadows an earlier one. -/
def Files := List (String × String)

def lookupFile (files : Files) (name : String) : Option String :=
  match files.find? (fun kv => kv.1 == name) with
  | some kv => some kv.2
  | none => none

/-- `save_page(file_name, title, html, show_exists_error)`: warn (only)
when the file exists and the warning is not suppressed, then write the
complete document unconditionally.  Returns the new directory state and
whether the warning was printed. -/
def save_page (files : Files) (file_name title html : String)
    (show_exists_error : Bool := true) : Files × Bool :=
  let warned := show_exists_error && (lookupFile files file_name).isSome
  ((file_name, htmlTemplate title html) :: files, warned)

/-- `download_file(url, file_name)`: write the body verbatim and
report `True`, or report `False` on `HTTPError` (no write), or let any
other exception propagate (`.error`).  The writes are returned as a
log fragment. -/
def download_file (f : Oracle) (url file_name : String) :
    Except String (Bool × List (String × String)) :=
  match f url with
  | .ok body => .ok (true, [(file_name, body)])
  | .httpError _ => .ok (false, [])
  | .otherError e => .error e

/-! ## CSS post-processing (`download_css`, lines 110–129) -/

/-- Split text into newline-terminated chunks (the final chunk may lack
the newline). -/
def lineChunks : List Char → List (List Char)
  | [] => []
  | c :: cs =>
    match lineChunks cs with
    | [] => [[c]]
    | t :: ts => if c = '\n' then [c] :: t :: ts else (c :: t) :: ts

/-- `re.sub("(.*)font-family:(.*);?\n", "", css)`: `.` does not cross
newlines, so each match is exactly one newline-terminated line
containing `font-family:`, and every such line is deleted. -/
def stripFontFamily (css : String) : String :=
  ⟨((lineChunks css.data).filter
      (fun ln => !(ln.getLast? == some '\n' && containsSubL "font-family:".data ln))).flatten⟩

/-- The fallback font rule appended to the stylesheet. -/
def cssFontRule : String :=
  "\n        body \x7b\n            font-family: -apple-system, BlinkMacSystemFont, \x27Segoe UI\x27, Roboto, Oxygen, Ubuntu, Cantarell, \x27Open Sans\x27, \x27Helvetica Neue\x27, sans-serif;\n        \x7d\n    "

def cssUrl : String := "https://doc-snapshots.qt.io/style/pyside.css"
def arrowUrl : String := "https://doc-snapshots.qt.io/style/list_arrow.png"
def rootUrl : String := "https://doc-snapshots.qt.io/qtforpython/"

def moduleIndexUrl (module : String) : String :=
  "https://doc-snapshots.qt.io/qtforpython/PySide2/" ++ module ++ "/index.html"

def classPageUrl (module class_name : String) : String :=
  "https://doc-snapshots.qt.io/qtforpython/PySide2/" ++ module ++ "/" ++ class_name ++ ".html"

/-- `download_css`: fetch the stylesheet (result ignored), read the
file back (`FileNotFoundError` if it neither was downloaded nor already
existed), strip the font-family lines, append the fallback rule, write
the file.  On a crash the error value carries the directory state at
that point. -/
def download_css_step (f : Oracle) (files : Files) : Except Files Files :=
  match download_file f cssUrl "main.css" with
  | .error _ => .error files
  | .ok (_, ws) =>
    let files1 := ws.foldl (fun acc w => w :: acc) files
    match lookupFile files1 "main.css" with
    | none => .error files1
    | some css => .ok (("main.css", stripFontFamily css ++ cssFontRule) :: files1)

/-! ## Crawl effects

The crawl functions only ever append to the database and write files
whose contents do not depend on the directory state, so each is
embedded as a pure function of the oracles that returns its file writes
and index insertions in order, plus either a result or the uncaught
exception that aborted it (effects already performed are kept, as the
real interpreter would). -/

structure Eff (α : Type) where
  writes : List (String × String)
  entries : List Entry
  res : Except String α

def Eff.pureE (a : α) : Eff α := ⟨[], [], .ok a⟩

def Eff.fail (e : String) : Eff α := ⟨[], [], .error e⟩

def Eff.bindE (x : Eff α) (g : α → Eff β) : Eff β :=
  match x.res with
  | .error e => ⟨x.writes, x.entries, .error e⟩
  | .ok a =>
    let y := g a
    ⟨x.writes ++ y.writes, x.entries ++ y.entries, y.res⟩

instance : Monad Eff where
  pure := Eff.pureE
  bind := Eff.bindE

def emitWrite (w : String × String) : Eff Unit := ⟨[w], [], .ok ()⟩

def emitWrites (ws : List (String × String)) : Eff Unit := ⟨ws, [], .ok ()⟩

def emitEntry (e : Entry) : Eff Unit := ⟨[], [e], .ok ()⟩

def forEff (xs : List α) (g : α → Eff Unit) : Eff Unit :=
  match xs with
  | [] => Eff.pureE ()
  | x :: rest => Eff.bindE (g x) (fun _ => forEff rest g)

def setChildren : Node → List Node → Node
  | .elem t a _, ch => .elem t a ch
  | .text s, _ => .text s

/-! ## `parse_main_page` (lines 132–155) -/

/- fetch the root, remove the modules-overview teaser inside
`#qt-modules`, rewrite the serialized body's hrefs by string
replacement, save `index.html`, and hand back the module links
(`find_all("a", class_="external")` on the mutated tree, whose `href`s
are untouched — only the saved string was rewritten). -/
def parse_main_page (f : Oracle) (p : Parser) : Eff (List Node) :=
  match do_request p f rootUrl with
  | .error e => Eff.fail e
  | .ok none => Eff.fail "AttributeError: NoneType.find"
  | .ok (some doc) =>
    match findNodeL (isElemClass "div" "bodywrapper") doc with
    | none => Eff.fail "AttributeError: NoneType.find"
    | some body =>
      match findNodeL (hasId "qt-modules") (childrenOf body) with
      | none => Eff.fail "AttributeError: NoneType.findChildren"
      | some qm =>
        match extractFirstL (isTagNamed "p") (childrenOf qm) with
        | none => Eff.fail "IndexError"
        | some qmCh1 =>
          match extractFirstL (isTagNamed "div") qmCh1 with
          | none => Eff.fail "IndexError"
          | some qmCh2 =>
            let qm2 := setChildren qm qmCh2
            let body2 := setChildren body
              (replaceFirstL (hasId "qt-modules") qm2 (childrenOf body))
            let doc2 := replaceFirstL (isElemClass "div" "bodywrapper") body2 doc
            let html_body :=
              strReplace (strReplace (serializeNode body2) "href=\x22PySide2/" "href=\x22")
                "/index.html" "-index.html"
            match findNodeL (isTagNamed "title") doc2 with
            | none => Eff.fail "AttributeError: NoneType.string"
            | some ttl => do
              emitWrite ("index.html", htmlTemplate (pyStr (nodeString ttl)) html_body)
              pure (findAllL (isElemClass "a" "external") (childrenOf body2))

/-! ## `parse_module_index_page` (lines 158–188) -/

def parse_module_index_page (cwd : String) (f : Oracle) (p : Parser) (module : String) :
    Eff (Option Node) :=
  let url := moduleIndexUrl module
  match do_request p f url with
  | .error e => Eff.fail e
  | .ok none => Eff.pureE none
  | .ok (some doc) =>
    match findNodeL (isElemClass "div" "bodywrapper") doc with
    | none => Eff.fail "AttributeError: NoneType.find"
    | some body =>
      match extractFirstL (isElemClass "div" "hide docutils container") (childrenOf body) with
      | none => Eff.fail "AttributeError: NoneType.extract"
      | some ch1 =>
        let body2 := cleanBody cwd url (setChildren body ch1)
        let doc2 := replaceFirstL (isElemClass "div" "bodywrapper") body2 doc
        match findNodeL (isTagNamed "title") doc2 with
        | none => Eff.fail "AttributeError: NoneType.string"
        | some ttl => do
          let fp := module ++ "-index.html"
          emitWrite (fp, htmlTemplate (pyStr (nodeString ttl)) (serializeNode body2))
          emitEntry ⟨module, "Module", fp⟩
          pure (some body2)

/-! ## `parse_class_page` (lines 191–260) -/

def imgDownloadUrl (src : String) : String :=
  "https://doc-snapshots.qt.io/qtforpython/" ++ src

/-- The image download loop: one `download_file` per collected `img`
in document order; a missing `src` raises `KeyError`, a non-HTTP
failure propagates, and partial downloads before a crash are kept. -/
def imgEffects (f : Oracle) (imgs : List Node) : Eff Unit :=
  forEff imgs (fun img =>
    match getAttr (attrsOf img) "src" with
    | none => Eff.fail "KeyError: src"
    | some src =>
      let src2 := strReplace src "../../" ""
      match download_file f (imgDownloadUrl src2) (lastSeg src2) with
      | .error e => Eff.fail e
      | .ok (_, ws) => emitWrites ws)

/- The tree effect of the image loop: each `img` either has its `src`
replaced by the downloaded file name or is extracted, depending only on
the oracle; the fall-through branches are unreachable once `imgEffects`
succeeded. -/
mutual

def transformImgNode (f : Oracle) : Node → List Node
  | .text s => [.text s]
  | .elem t a ch =>
    if t == "img" then
      match getAttr a "src" with
      | none => [.elem t a (transformImgList f ch)]
      | some src =>
        let src2 := strReplace src "../../" ""
        match download_file f (imgDownloadUrl src2) (lastSeg src2) with
        | .ok (true, _) => [.elem t (setAttr a "src" (lastSeg src2)) (transformImgList f ch)]
        | .ok (false, _) => []
        | .error _ => [.elem t a (transformImgList f ch)]
    else [.elem t a (transformImgList f ch)]

def transformImgList (f : Oracle) : List Node → List Node
  | [] => []
  | n :: ns => transformImgNode f n ++ transformImgList f ns

end

def parse_class_page (cwd : String) (f : Oracle) (p : Parser) (module class_name : String) :
    Eff Unit :=
  let url := classPageUrl module class_name
  match do_request p f url with
  | .error e => Eff.fail e
  | .ok none => Eff.fail "AttributeError: NoneType.find"
  | .ok (some doc) =>
    match findNodeL (isElemClass "div" "bodywrapper") doc with
    | none => Eff.fail "AttributeError: NoneType.find"
    | some body =>
      match inhList (childrenOf body) with
      | .error e => Eff.fail e
      | .ok (ch1, _) =>
        let body2 := cleanBody cwd url (setChildren body ch1)
        let imgs := findAllL (isTagNamed "img") (childrenOf body2)
        do
          imgEffects f imgs
          let body3 := setChildren body2 (transformImgList f (childrenOf body2))
          let doc2 := replaceFirstL (isElemClass "div" "bodywrapper") body3 doc
          match findNodeL (isTagNamed "title") doc2 with
          | none => Eff.fail "AttributeError: NoneType.string"
          | some ttl => do
            let fp := class_name ++ ".html"
            emitWrite (fp, htmlTemplate (pyStr (nodeString ttl)) (serializeNode body3))
            emitEntry ⟨"PySide2." ++ module ++ "." ++ class_name, classifyType class_name, fp⟩
            match findNodeL (hasId "synopsis") (childrenOf body3) with
            | none => pure ()
            | some syn =>
              forEff (findAllL (isElemClass "a" "reference internal") (childrenOf syn))
                (fun m =>
                  match getAttr (attrsOf m) "href" with
                  | none => Eff.fail "KeyError: href"
                  | some h =>
                    emitEntry ⟨"PySide2." ++ module ++ "." ++ class_name ++ "."
                        ++ pyStr (nodeString m), "Method", fp ++ h⟩)

/-! ## The orchestrator (`main`, lines 263–313) -/

/-- One iteration of the module loop: crawl the module, returning
whether it was recorded in `modules_in_404` (fetch came back 404). -/
def processModule (cwd : String) (f : Oracle) (p : Parser) (slug : String) : Eff Bool := do
  let r ← parse_module_index_page cwd f p slug
  match r with
  | none => pure true
  | some body =>
    match findNodeL (isElemClass "div" "pysidetoc docutils container") (childrenOf body) with
    | none => Eff.fail "AttributeError: NoneType.find_all"
    | some toc => do
      forEff (findAllL (isElemClass "a" "internal") (childrenOf toc))
        (fun fn => parse_class_page cwd f p slug (pyStr (nodeString fn)))
      pure false

def crawlLoop (cwd : String) (f : Oracle) (p : Parser) : List Node → Eff (List String)
  | [] => Eff.pureE []
  | link :: rest =>
    match nodeString link with
    | none => Eff.fail "AttributeError: NoneType.replace"
    | some s => do
      let slug := strReplace s " " ""
      let was404 ← processModule cwd f p slug
      let others ← crawlLoop cwd f p rest
      pure (if was404 then slug :: others else others)

/-- Everything `main` does between the asset downloads and the
post-pass, as a pure effect trace: crawl the root page and every
module, returning `modules_in_404`. -/
def crawlPhase (cwd : String) (f : Oracle) (p : Parser) : Eff (List String) := do
  let links ← parse_main_page f p
  crawlLoop cwd f p links

structure State where
  table : List Entry
  files : Files

def applyWrites (files : Files) (ws : List (String × String)) : Files :=
  ws.foldl (fun acc w => w :: acc) files

def applyEntries (table : List Entry) (es : List Entry) : List Entry :=
  es.foldl insert_entry table

/-- The post-pass (lines 297–305): re-open the saved root page, unwrap
the first link matching each 404 module, re-save without the overwrite
warning.  A read of a missing file, a `find` miss and a missing title
are the crash points (state returned as-is). -/
def postPass (p : Parser) (m404 : List String) (st : State) : State :=
  match lookupFile st.files "index.html" with
  | none => st
  | some content =>
    match unwrapAll m404 (p content) with
    | none => st
    | some tree2 =>
      match findNodeL (isTagNamed "title") tree2 with
      | none => st
      | some ttl =>
        { table := st.table
          files := (save_page st.files "index.html" (pyStr (nodeString ttl))
            (serializeL tree2) false).1 }

/-- `main()` after the stylesheet step: fetch the arrow icon, crawl
(applying the crawl's writes and inserts to the reset database and the
directory), then run the post-pass. -/
def runAfterCss (cwd : String) (f : Oracle) (p : Parser) (fl1 : Files) : State :=
  match download_file f arrowUrl "list_arrow.png" with
  | .error _ => ⟨init_database, fl1⟩
  | .ok (_, ws) =>
    match (crawlPhase cwd f p).res with
    | .error _ =>
      ⟨applyEntries init_database (crawlPhase cwd f p).entries,
        applyWrites (applyWrites fl1 ws) (crawlPhase cwd f p).writes⟩
    | .ok m404 =>
      postPass p m404
        ⟨applyEntries init_database (crawlPhase cwd f p).entries,
          applyWrites (applyWrites fl1 ws) (crawlPhase cwd f p).writes⟩

/-- `main()`: reset the database, fetch and rewrite the stylesheet,
fetch the arrow icon, crawl, run the post-pass.  The returned state is
the state at normal termination or at the uncaught exception. -/
def runMain (cwd : String) (f : Oracle) (p : Parser) (s : State) : State :=
  match download_css_step f s.files with
  | .error fl => ⟨init_database, fl⟩
  | .ok fl1 => runAfterCss cwd f p fl1

/-! ## Auxiliary predicates used by the statements -/

/-- The post-pass match condition, at the level of an anchor's
attribute list: its `href` contains the slug. -/
def attrsMatchSlug (slug : String) (attrs : List (String × String)) : Bool :=
  match getAttr attrs "href" with
  | some h => inStr slug h
  | none => false

/-! ## A concrete crawl run (two modules, one of them not found)

The site has modules `QtCore` (reachable, listed first on the root
page) and `Qt` (whose index fetch returns 404).  Every page is a
distinct opaque body string which the parser oracle maps to its tree. -/

def cexRootDoc : List Node :=
  [.elem "html" [] [
    .elem "head" [] [.elem "title" [] [.text "QtHome"]],
    .elem "body" [] [
      .elem "div" [("class", "bodywrapper")] [
        .elem "div" [("id", "qt-modules")] [
          .elem "p" [] [.text "teaser"],
          .elem "div" [] [.text "overview"]],
        .elem "a" [("class", "external"), ("href", "PySide2/QtCore/index.html")] [.text "QtCore"],
        .elem "a" [("class", "external"), ("href", "PySide2/Qt/index.html")] [.text "Qt"]]]]]

def cexQtCoreDoc : List Node :=
  [.elem "html" [] [
    .elem "head" [] [.elem "title" [] [.text "QtCore"]],
    .elem "body" [] [
      .elem "div" [("class", "bodywrapper")] [
        .elem "div" [("class", "hide docutils container")] [.text "junk"],
        .elem "div" [("class", "pysidetoc docutils container")] []]]]]

def cexOracle : Oracle := fun url =>
  if url == rootUrl then .ok "ROOTHTML"
  else if url == cssUrl then .ok "CSSBODY"
  else if url == arrowUrl then .ok "PNGBODY"
  else if url == moduleIndexUrl "QtCore" then .ok "QTCOREHTML"
  else .httpError 404

/-- The root page as `parse_main_page` saves it in this run (what the
post-pass will read back and re-parse). -/
def cexSavedRoot : String :=
  ((parse_main_page cexOracle
      (fun s => if s == "ROOTHTML" then cexRootDoc
                else if s == "QTCOREHTML" then cexQtCoreDoc
                else [])).writes.headD ("", "")).2

/-- The tree the parser oracle returns for the saved root page —
the straightforward parse of the markup `parse_main_page` wrote. -/
def cexParsedRoot : List Node :=
  [.elem "html" [("lang", "en")] [
    .elem "head" [] [.elem "title" [] [.text "QtHome"]],
    .elem "body" [] [
      .elem "div" [("class", "bodywrapper")] [
        .elem "div" [("id", "qt-modules")] [],
        .elem "a" [("class", "external"), ("href", "QtCore-index.html")] [.text "QtCore"],
        .elem "a" [("class", "external"), ("href", "Qt-index.html")] [.text "Qt"]]]]]

def cexParser : Parser := fun s =>
  if s == "ROOTHTML" then cexRootDoc
  else if s == "QTCOREHTML" then cexQtCoreDoc
  else if s == cexSavedRoot then cexParsedRoot
  else []

/-- The full run of the concrete crawl, from an empty initial state. -/
def cexFinal : State := runMain "/w" cexOracle cexParser ⟨[], []⟩

/-- The root page as saved at the end of the concrete run. -/
def cexFinalRoot : String := (lookupFile cexFinal.files "index.html").getD ""

/-! # Theorems -/

/-! ## C6 — idempotent index insertion -/

theorem mem_insert_entry (t : List Entry) (e : Entry) : e ∈ insert_entry t e := by
  unfold insert_entry
  split
  · assumption
  · exact List.mem_append_right _ (List.mem_singleton.mpr rfl)

theorem insert_entry_of_mem (t : List Entry) (e : Entry) (h : e ∈ t) :
    insert_entry t e = t := by
  unfold insert_entry
  simp [h]

/-- C6: re-inserting a (name, type, path) triple already present is a
silent no-op — inserting the same triple twice starting from a table
holding at most one copy leaves exactly one row for it, and the second
insert changes nothing at all. -/
theorem c6_insert_idempotent (t : List Entry) (e : Entry) :
    insert_entry (insert_entry t e) e = insert_entry t e ∧
    (List.count e t ≤ 1 → List.count e (insert_entry (insert_entry t e) e) = 1) := by
  have hmem : e ∈ insert_entry t e := mem_insert_entry t e
  have hsecond : insert_entry (insert_entry t e) e = insert_entry t e :=
    insert_entry_of_mem _ e hmem
  refine ⟨hsecond, fun hle => ?_⟩
  rw [hsecond]
  unfold insert_entry
  split
  · have hpos : 0 < List.count e t := List.count_pos_iff.mpr (by assumption)
    omega
  · have hzero : List.count e t = 0 := List.count_eq_zero.mpr (by assumption)
    rw [List.count_append, hzero]
    simp

theorem c6_witness :
    List.count (Entry.mk "PySide2.QtCore.QObject" "Class" "QObject.html")
      (insert_entry (insert_entry [] (Entry.mk "PySide2.QtCore.QObject" "Class" "QObject.html"))
        (Entry.mk "PySide2.QtCore.QObject" "Class" "QObject.html")) = 1 :=
  (c6_insert_idempotent [] (Entry.mk "PySide2.QtCore.QObject" "Class" "QObject.html")).2
    (by decide)

/-! ## C8 — saving warns on an existing file but always writes -/

/-- C8: `save_page` leaves the destination holding the complete
rendered document in every case, and prints the overwrite warning
exactly when the file already existed and the caller did not suppress
it — the warning never blocks the write. -/
theorem c8_save_page (files : Files) (file_name title html : String) (se : Bool) :
    lookupFile (save_page files file_name title html se).1 file_name
      = some (htmlTemplate title html) ∧
    (save_page files file_name title html se).2
      = (se && (lookupFile files file_name).isSome) := by
  constructor
  · simp [save_page, lookupFile, List.find?]
  · rfl

/-! ## C7 — the fetcher's error contract -/

/-- C7 (amended): `do_request` returns the parsed tree on success and
`None` on an HTTP error status, and in those two cases never raises;
a retrieval failure that is not an HTTP error status (a network-level
`URLError`, say) is not caught and propagates to the caller. -/
theorem c7_fetch_contract (p : Parser) (f : Oracle) (url : String) :
    (∀ body, f url = .ok body → do_request p f url = .ok (some (p body))) ∧
    (∀ code, f url = .httpError code → do_request p f url = .ok none) ∧
    (∀ msg, f url = .otherError msg → do_request p f url = .error msg) := by
  refine ⟨fun body hb => ?_, fun code hc => ?_, fun msg hm => ?_⟩
  · simp [do_request, hb]
  · simp [do_request, hc]
  · simp [do_request, hm]

theorem c7_witness :
    do_request (fun _ => []) (fun _ => UrlResult.ok "page") "https://x" = .ok (some []) ∧
    do_request (fun _ => []) (fun _ => UrlResult.httpError 404) "https://x" = .ok none :=
  ⟨(c7_fetch_contract (fun _ => []) (fun _ => UrlResult.ok "page") "https://x").1 "page" rfl,
   (c7_fetch_contract (fun _ => []) (fun _ => UrlResult.httpError 404) "https://x").2.1 404 rfl⟩

/-- C7 is refuted as stated: a retrieval failure that is not an HTTP
error status makes the fetcher raise to the caller. -/
theorem c7_counterexample :
    do_request (fun _ => []) (fun _ => UrlResult.otherError "URLError: unreachable")
      "https://x" = .error "URLError: unreachable" := rfl

/-! ## C4 — the naming-suffix classification -/

theorem endswith_last_char (s suf : String) (c : Char)
    (hc : suf.data.getLast? = some c) (h : endswith s suf = true) :
    s.data.getLast? = some c := by
  obtain ⟨t, ht⟩ := List.isSuffixOf_iff_suffix.mp h
  rw [← ht, List.getLast?_append, hc]
  rfl

/-- C4: the index-entry type registered for a class page is chosen by
the name suffix — `…Event` gives `Event`, `…Interface` gives
`Interface`, `…Enum` gives `Enum`, anything else gives `Class` (the
three suffixes are mutually exclusive, so the `if`-chain order cannot
mask a case). -/
theorem c4_classify (class_name : String) :
    (endswith class_name "Event" = true → classifyType class_name = "Event") ∧
    (endswith class_name "Interface" = true → classifyType class_name = "Interface") ∧
    (endswith class_name "Enum" = true → classifyType class_name = "Enum") ∧
    (endswith class_name "Event" = false → endswith class_name "Interface" = false →
      endswith class_name "Enum" = false → classifyType class_name = "Class") := by
  refine ⟨fun hv => ?_, fun hi => ?_, fun he => ?_, fun h1 h2 h3 => ?_⟩
  · simp [classifyType, hv]
  · have hv : endswith class_name "Event" = false := by
      cases hv2 : endswith class_name "Event"
      · rfl
      · have ht := endswith_last_char class_name "Event" 't' (by decide) hv2
        have he := endswith_last_char class_name "Interface" 'e' (by decide) hi
        rw [ht] at he
        exact absurd (Option.some.inj he) (by decide)
    simp [classifyType, hv, hi]
  · have hv : endswith class_name "Event" = false := by
      cases hv2 : endswith class_name "Event"
      · rfl
      · have ht := endswith_last_char class_name "Event" 't' (by decide) hv2
        have hm := endswith_last_char class_name "Enum" 'm' (by decide) he
        rw [ht] at hm
        exact absurd (Option.some.inj hm) (by decide)
    have hi : endswith class_name "Interface" = false := by
      cases hi2 : endswith class_name "Interface"
      · rfl
      · have ht := endswith_last_char class_name "Interface" 'e' (by decide) hi2
        have hm := endswith_last_char class_name "Enum" 'm' (by decide) he
        rw [ht] at hm
        exact absurd (Option.some.inj hm) (by decide)
    simp [classifyType, hv, hi, he]
  · simp [classifyType, h1, h2, h3]

/-! ## Link-rewriter groundwork shared by C2, C3 and C10 -/

theorem cleanList_append (cwd url : String) (xs ys : List Node) :
    cleanList cwd url (xs ++ ys) = cleanList cwd url xs ++ cleanList cwd url ys := by
  induction xs with
  | nil => rfl
  | cons n rest ih => simp [cleanList, ih]

theorem textContentL_append (xs ys : List Node) :
    textContentL (xs ++ ys) = textContentL xs ++ textContentL ys := by
  induction xs with
  | nil => rfl
  | cons n rest ih => cases n <;> simp [textContentL, ih]

theorem textContent_cleanList (cwd url : String) (ns : List Node) :
    textContentL (cleanList cwd url ns) = textContentL ns :=
  match ns with
  | [] => rfl
  | .text s :: rest => by
    have ih := textContent_cleanList cwd url rest
    simp [cleanList, cleanNode, textContentL, textContentN, ih]
  | .elem t a ch :: rest => by
    have ihch := textContent_cleanList cwd url ch
    have ih := textContent_cleanList cwd url rest
    have htc : textContentL (cleanNode cwd url (Node.elem t a ch)) = textContentL ch := by
      simp only [cleanNode]
      split
      · cases hattr : getAttr a "href" with
        | none => simp [hattr, textContentL, textContentN, ihch]
        | some hh =>
          by_cases hm : hrefMatches hh = true
          · by_cases hin : insideDoc cwd url hh = true
            · simp [hattr, hm, hin, textContentL, textContentN, ihch]
            · simp [hattr, hm, hin, ihch]
          · simp [hattr, hm, textContentL, textContentN, ihch]
      · simp [textContentL, textContentN, ihch]
    simp only [cleanList]
    rw [textContentL_append, htc, ih]
    simp [textContentL, textContentN]
termination_by sizeOf ns

theorem hrefMatches_of_beginsWith (h : String) (hb : beginsWith "../" h = true) :
    hrefMatches h = true := by
  obtain ⟨t, ht⟩ := List.isPrefixOf_iff_prefix.mp hb
  unfold hrefMatches
  rw [← ht]
  rfl

/-! ## C2 groundwork: the final segment of a normalised path -/

theorem getLastD_of_ne_nil {α : Type} (l : List α) (d : α) (h : l ≠ []) :
    l.getLastD d = l.getLast h := by
  rw [List.getLastD_eq_getLast?, List.getLast?_eq_getLast l h]
  rfl

theorem getLastD_irrel {α : Type} (l : List α) (d1 d2 : α) (h : l ≠ []) :
    l.getLastD d1 = l.getLastD d2 := by
  rw [getLastD_of_ne_nil l d1 h, getLastD_of_ne_nil l d2 h]

theorem getLastD_mem {α : Type} (l : List α) (d : α) (h : l ≠ []) :
    l.getLastD d ∈ l := by
  rw [getLastD_of_ne_nil l d h]
  exact List.getLast_mem h

theorem splitChar_ne_nil (sep : Char) (l : List Char) : splitChar sep l ≠ [] := by
  induction l with
  | nil => simp [splitChar]
  | cons c cs ih =>
    simp only [splitChar]
    split
    · simp
    · cases h : splitChar sep cs with
      | nil => simp
      | cons t ts => simp [h]

theorem splitChar_append (sep : Char) (a b : List Char) :
    splitChar sep (a ++ sep :: b) = splitChar sep a ++ splitChar sep b := by
  induction a with
  | nil => simp [splitChar]
  | cons c cs ih =>
    by_cases hc : c = sep
    · subst hc
      simp [splitChar, ih]
    · simp only [List.cons_append, splitChar, if_neg hc, List.append_eq]
      rw [ih]
      cases hsc : splitChar sep cs with
      | nil => exact absurd hsc (splitChar_ne_nil sep cs)
      | cons t ts => simp [hsc]

theorem splitChar_of_notMem (sep : Char) (l : List Char) (h : ¬ sep ∈ l) :
    splitChar sep l = [l] := by
  induction l with
  | nil => rfl
  | cons c cs ih =>
    have hc : ¬ c = sep := fun hh => by
      apply h
      rw [← hh]
      exact List.mem_cons_self c cs
    have hcs : ¬ sep ∈ cs := fun hh => h (List.mem_cons_of_mem _ hh)
    simp [splitChar, if_neg hc, ih hcs]

theorem splitChar_sep_notMem (sep : Char) (l : List Char) :
    ∀ x ∈ splitChar sep l, ¬ sep ∈ x := by
  induction l with
  | nil =>
    intro x hx
    simp only [splitChar, List.mem_singleton] at hx
    subst hx
    simp
  | cons c cs ih =>
    intro x hx
    by_cases hc : c = sep
    · subst hc
      simp only [splitChar, if_pos rfl] at hx
      rcases List.mem_cons.mp hx with h | h
      · subst h; simp
      · exact ih x h
    · simp only [splitChar, if_neg hc] at hx
      cases hsc : splitChar sep cs with
      | nil => exact absurd hsc (splitChar_ne_nil sep cs)
      | cons t ts =>
        rw [hsc] at hx
        rcases List.mem_cons.mp hx with h | h
        · subst h
          intro hmem
          rcases List.mem_cons.mp hmem with h1 | h1
          · exact hc h1.symm
          · exact ih t (hsc ▸ List.mem_cons_self t ts) h1
        · exact ih x (hsc ▸ List.mem_cons_of_mem t h)

theorem joinChar_concat (sep : Char) (M : List (List Char)) (c : List Char) (h : M ≠ []) :
    joinChar sep (M ++ [c]) = joinChar sep M ++ sep :: c := by
  induction M with
  | nil => exact absurd rfl h
  | cons x xs ih =>
    cases xs with
    | nil => simp [joinChar]
    | cons y ys =>
      have hih := ih (by simp)
      have e1 : joinChar sep (x :: y :: ys ++ [c])
          = x ++ sep :: joinChar sep ((y :: ys) ++ [c]) := rfl
      have e2 : joinChar sep (x :: y :: ys) = x ++ sep :: joinChar sep (y :: ys) := rfl
      rw [e1, e2, hih]
      simp [List.append_assoc]

theorem normFold_concat (ab : Bool) (L : List (List Char)) (c : List Char)
    (h1 : c ≠ []) (h2 : c ≠ ['.']) (h3 : c ≠ ['.', '.']) :
    normFold ab (L ++ [c]) = normFold ab L ++ [c] := by
  unfold normFold
  rw [List.foldl_append]
  simp only [List.foldl_cons, List.foldl_nil]
  rw [if_neg (by simp [h1, h2]), if_pos (Or.inl h3)]

theorem splitChar_slashes_getLastD (sl c : List Char) (hsl : ∀ x ∈ sl, x = '/')
    (hc : ¬ '/' ∈ c) : (splitChar '/' (sl ++ c)).getLastD [] = c := by
  induction sl with
  | nil => simp [splitChar_of_notMem _ _ hc]
  | cons x xs ih =>
    have hx : x = '/' := hsl x (List.mem_cons_self x xs)
    subst hx
    have e1 : splitChar '/' (('/' :: xs) ++ c) = [] :: splitChar '/' (xs ++ c) := by
      show splitChar '/' ('/' :: (xs ++ c)) = _
      simp [splitChar]
    rw [e1, List.getLastD_cons]
    exact ih (fun y hy => hsl y (List.mem_cons_of_mem _ hy))

/-- The final `/`-segment of a POSIX-normalised path whose input ends
in `/`-then-`hd`, provided the final segment of `hd` is an ordinary
name (non-empty, not `.`, not `..`): normalisation keeps it last. -/
theorem normpath_concat_lastSeg (Y hd : List Char)
    (h1 : (splitChar '/' hd).getLastD [] ≠ [])
    (h2 : (splitChar '/' hd).getLastD [] ≠ ['.'])
    (h3 : (splitChar '/' hd).getLastD [] ≠ ['.', '.']) :
    lastSeg (normpath ⟨Y ++ '/' :: hd⟩) = ⟨(splitChar '/' hd).getLastD []⟩ := by
  have hsne : splitChar '/' hd ≠ [] := splitChar_ne_nil '/' hd
  have hcmem : (splitChar '/' hd).getLastD [] ∈ splitChar '/' hd := getLastD_mem _ _ hsne
  have hslash : ¬ '/' ∈ (splitChar '/' hd).getLastD [] :=
    splitChar_sep_notMem '/' hd _ hcmem
  set c := (splitChar '/' hd).getLastD [] with hc
  have hdecomp : splitChar '/' hd = (splitChar '/' hd).dropLast ++ [c] := by
    rw [hc, getLastD_of_ne_nil _ _ hsne]
    exact (List.dropLast_append_getLast hsne).symm
  unfold normpath
  rw [if_neg (by simp : ¬ (String.mk (Y ++ '/' :: hd)).data = [])]
  show lastSeg
      (if List.replicate (normSlashes (Y ++ '/' :: hd)) '/'
            ++ joinChar '/' (normFold (decide (0 < normSlashes (Y ++ '/' :: hd)))
              (splitChar '/' ((String.mk (Y ++ '/' :: hd)).data))) = []
       then "."
       else ⟨List.replicate (normSlashes (Y ++ '/' :: hd)) '/'
            ++ joinChar '/' (normFold (decide (0 < normSlashes (Y ++ '/' :: hd)))
              (splitChar '/' ((String.mk (Y ++ '/' :: hd)).data)))⟩) = ⟨c⟩
  rw [show (String.mk (Y ++ '/' :: hd)).data = Y ++ '/' :: hd from rfl]
  rw [splitChar_append, hdecomp, ← List.append_assoc, normFold_concat _ _ _ h1 h2 h3]
  generalize normFold (decide (0 < normSlashes (Y ++ '/' :: hd)))
      (splitChar '/' Y ++ (splitChar '/' hd).dropLast) = M
  generalize normSlashes (Y ++ '/' :: hd) = k
  by_cases hM0 : M = []
  · rw [hM0]
    have hjne : ¬ (List.replicate k '/' ++ joinChar '/' ([] ++ [c]) = []) := by
      intro hcon
      exact h1 (List.append_eq_nil.mp hcon).2
    rw [if_neg hjne]
    refine String.ext ?_
    show (splitChar '/' (List.replicate k '/' ++ c)).getLastD [] = c
    exact splitChar_slashes_getLastD _ _ (fun y hy => (List.mem_replicate.mp hy).2) hslash
  · rw [joinChar_concat '/' M c hM0]
    have hjne : ¬ (List.replicate k '/' ++ (joinChar '/' M ++ '/' :: c) = []) := by simp
    rw [if_neg hjne]
    refine String.ext ?_
    show (splitChar '/' (List.replicate k '/' ++ (joinChar '/' M ++ '/' :: c))).getLastD [] = c
    rw [show List.replicate k '/' ++ (joinChar '/' M ++ '/' :: c)
        = (List.replicate k '/' ++ joinChar '/' M) ++ '/' :: c by simp [List.append_assoc]]
    rw [splitChar_append, splitChar_of_notMem _ _ hslash]
    rw [List.getLastD_eq_getLast?, List.getLast?_concat]
    rfl

/-- The data of `dirname url ++ "/" ++ h`. -/
theorem dirSlash_data (url h : String) :
    (dirname url ++ "/" ++ h).data = (dirname url).data ++ '/' :: h.data := by
  rw [String.data_append, String.data_append]
  simp

/-- C2's core string fact: when the final segment of `href` is an
ordinary name, the final segment of the resolved absolute target equals
the final segment of the original `href`, and contains no slash. -/
theorem lastSeg_resolvedTarget (cwd url h : String)
    (h1 : lastSeg h ≠ "") (h2 : lastSeg h ≠ ".") (h3 : lastSeg h ≠ "..") :
    lastSeg (resolvedTarget cwd url h) = lastSeg h ∧ ¬ '/' ∈ (lastSeg h).data := by
  have hc1 : (splitChar '/' h.data).getLastD [] ≠ [] :=
    fun hcon => h1 (String.ext (by simpa [lastSeg] using hcon))
  have hc2 : (splitChar '/' h.data).getLastD [] ≠ ['.'] :=
    fun hcon => h2 (String.ext (by simpa [lastSeg] using hcon))
  have hc3 : (splitChar '/' h.data).getLastD [] ≠ ['.', '.'] :=
    fun hcon => h3 (String.ext (by simpa [lastSeg] using hcon))
  have hlseg : lastSeg h = String.mk ((splitChar '/' h.data).getLastD []) := rfl
  have hslash : ¬ '/' ∈ (lastSeg h).data := by
    rw [hlseg]
    exact splitChar_sep_notMem '/' h.data _ (getLastD_mem _ _ (splitChar_ne_nil '/' h.data))
  refine ⟨?_, hslash⟩
  rw [hlseg]
  unfold resolvedTarget abspath
  split
  · rw [show dirname url ++ "/" ++ h = String.mk ((dirname url).data ++ '/' :: h.data) from
      String.ext (dirSlash_data url h)]
    exact normpath_concat_lastSeg _ _ hc1 hc2 hc3
  · unfold joinPath
    split
    · rw [show dirname url ++ "/" ++ h = String.mk ((dirname url).data ++ '/' :: h.data) from
        String.ext (dirSlash_data url h)]
      exact normpath_concat_lastSeg _ _ hc1 hc2 hc3
    · split
      · rw [show cwd ++ (dirname url ++ "/" ++ h)
            = String.mk ((cwd.data ++ (dirname url).data) ++ '/' :: h.data) from
          String.ext (by rw [String.data_append, dirSlash_data url h]; simp)]
        exact normpath_concat_lastSeg _ _ hc1 hc2 hc3
      · rw [show cwd ++ "/" ++ (dirname url ++ "/" ++ h)
            = String.mk ((cwd.data ++ '/' :: (dirname url).data) ++ '/' :: h.data) from
          String.ext (by rw [String.data_append, String.data_append, dirSlash_data url h]; simp)]
        exact normpath_concat_lastSeg _ _ hc1 hc2 hc3

/-! ## C2 — in-scope links are flattened to the last path segment -/

/-- C2 (amended): an `a`/`area` element whose `href` begins with `../`
and resolves inside the documentation path space has its `href`
replaced by the final segment of the *original* `href`
(`href.split("/")[-1]`); whenever that segment is an ordinary name
(non-empty, not `.` and not `..` — in particular whenever the `href`
does not end in `/`), it equals the final path segment of the resolved
target and contains no directory components.  (For an `href` ending in
`/` the installed value is the empty string, not the resolved target's
final segment — see the counterexample.) -/
theorem c2_flatten_inside (cwd url t : String) (a : List (String × String))
    (ch : List Node) (h : String) (pre post : List Node)
    (ht : t = "a" ∨ t = "area") (hh : getAttr a "href" = some h)
    (hb : beginsWith "../" h = true) (hin : insideDoc cwd url h = true)
    (h1 : lastSeg h ≠ "") (h2 : lastSeg h ≠ ".") (h3 : lastSeg h ≠ "..") :
    cleanList cwd url (pre ++ Node.elem t a ch :: post)
      = cleanList cwd url pre
          ++ Node.elem t (setAttr a "href" (lastSeg h)) (cleanList cwd url ch)
            :: cleanList cwd url post ∧
    lastSeg (resolvedTarget cwd url h) = lastSeg h ∧
    ¬ '/' ∈ (lastSeg h).data := by
  have hm := hrefMatches_of_beginsWith h hb
  have hcond : (t == "a" || t == "area") = true := by
    rcases ht with hx | hx <;> simp [hx]
  have hnode : cleanNode cwd url (Node.elem t a ch)
      = [Node.elem t (setAttr a "href" (lastSeg h)) (cleanList cwd url ch)] := by
    simp [cleanNode, hcond, hh, hm, hin]
  obtain ⟨hres, hsl⟩ := lastSeg_resolvedTarget cwd url h h1 h2 h3
  refine ⟨?_, hres, hsl⟩
  rw [cleanList_append]
  simp [cleanList, hnode]

theorem c2_witness :
    beginsWith "../" "../QtGui/index.html" = true ∧
    insideDoc "/w" "https://doc-snapshots.qt.io/qtforpython/PySide2/QtCore/index.html"
      "../QtGui/index.html" = true ∧
    cleanList "/w" "https://doc-snapshots.qt.io/qtforpython/PySide2/QtCore/index.html"
      [Node.elem "a" [("href", "../QtGui/index.html")] [Node.text "QtGui"]]
      = [Node.elem "a" [("href", "index.html")] [Node.text "QtGui"]] ∧
    lastSeg (resolvedTarget "/w"
      "https://doc-snapshots.qt.io/qtforpython/PySide2/QtCore/index.html"
      "../QtGui/index.html") = lastSeg "../QtGui/index.html" := by
  have h := c2_flatten_inside "/w"
    "https://doc-snapshots.qt.io/qtforpython/PySide2/QtCore/index.html" "a"
    [("href", "../QtGui/index.html")] [Node.text "QtGui"] "../QtGui/index.html" [] []
    (Or.inl rfl) rfl (by decide) (by decide) (by decide) (by decide) (by decide)
  exact ⟨by decide, by decide, h.1.trans rfl, h.2.1⟩

/-- C2 is refuted as stated: for the in-scope `href` `"../"` (which
begins with a parent-directory traversal), the rewriter installs the
empty string — the final segment of the original `href` — while the
final path segment of the resolved target is `"PySide2"`. -/
theorem c2_counterexample :
    beginsWith "../" "../" = true ∧
    insideDoc "/w" "https://doc-snapshots.qt.io/qtforpython/PySide2/QtCore/index.html"
      "../" = true ∧
    collectHrefs (cleanList "/w"
      "https://doc-snapshots.qt.io/qtforpython/PySide2/QtCore/index.html"
      [Node.elem "a" [("href", "../")] [Node.text "up"]]) = [""] ∧
    lastSeg (resolvedTarget "/w"
      "https://doc-snapshots.qt.io/qtforpython/PySide2/QtCore/index.html" "../")
      = "PySide2" ∧
    ("" : String) ≠ "PySide2" :=
  ⟨by decide, by decide, by decide, by decide, by decide⟩

/-! ## C3 — out-of-scope links are unwrapped, text kept -/

/-- C3: an `a`/`area` element whose `href` begins with `../` and whose
resolved target lies outside the documentation path space (the
`"PySide2" in abspath(...)` test fails) is removed from the output with
its (rewritten) children left in its place, and the text content of
those children is preserved exactly. -/
theorem c3_outside_unwrapped (cwd url t : String) (a : List (String × String))
    (ch : List Node) (h : String) (pre post : List Node)
    (ht : t = "a" ∨ t = "area") (hh : getAttr a "href" = some h)
    (hb : beginsWith "../" h = true) (hin : insideDoc cwd url h = false) :
    cleanList cwd url (pre ++ Node.elem t a ch :: post)
      = cleanList cwd url pre ++ cleanList cwd url ch ++ cleanList cwd url post ∧
    textContentL (cleanList cwd url ch) = textContentL ch := by
  have hm := hrefMatches_of_beginsWith h hb
  have hcond : (t == "a" || t == "area") = true := by
    rcases ht with h1 | h1 <;> simp [h1]
  have hnode : cleanNode cwd url (Node.elem t a ch) = cleanList cwd url ch := by
    simp [cleanNode, hcond, hh, hm, hin]
  constructor
  · rw [cleanList_append]
    simp [cleanList, hnode, List.append_assoc]
  · exact textContent_cleanList cwd url ch

theorem c3_witness :
    beginsWith "../" "../c.html" = true ∧
    insideDoc "/w" "https://example.com/a/b.html" "../c.html" = false ∧
    cleanList "/w" "https://example.com/a/b.html"
      [Node.elem "a" [("href", "../c.html")] [Node.text "offsite"]] = [Node.text "offsite"] := by
  have h := c3_outside_unwrapped "/w" "https://example.com/a/b.html" "a"
    [("href", "../c.html")] [Node.text "offsite"] "../c.html" [] []
    (Or.inl rfl) rfl (by decide) (by decide)
  exact ⟨by decide, by decide, h.1.trans rfl⟩

/-! ## C10 — what the rewriter leaves alone -/

theorem cleanList_id_of_noMatch (cwd url : String) (ns : List Node)
    (h : noMatchedHref ns = true) : cleanList cwd url ns = ns :=
  match ns with
  | [] => rfl
  | .text s :: rest => by
    rw [noMatchedHref] at h
    simp only [Bool.and_eq_true] at h
    have ih := cleanList_id_of_noMatch cwd url rest h.2
    simp [cleanList, cleanNode, ih]
  | .elem t a ch :: rest => by
    rw [noMatchedHref] at h
    simp only [Bool.and_eq_true] at h
    obtain ⟨hn, hrest⟩ := h
    rw [noMatchedHrefN] at hn
    simp only [Bool.and_eq_true] at hn
    obtain ⟨hcond, hch⟩ := hn
    have ihch := cleanList_id_of_noMatch cwd url ch hch
    have ihr := cleanList_id_of_noMatch cwd url rest hrest
    simp only [cleanList, ihr]
    have hnode : cleanNode cwd url (Node.elem t a ch) = [Node.elem t a ch] := by
      simp only [cleanNode, ihch]
      cases hta : (t == "a" || t == "area") with
      | false => simp [hta]
      | true =>
        rw [if_pos hta] at hcond
        cases hattr : getAttr a "href" with
        | none => simp [hta, hattr]
        | some hh =>
          simp only [hattr] at hcond
          have hm : hrefMatches hh = false := by simpa using hcond
          simp [hta, hattr, hm]
    rw [hnode]
    rfl
termination_by sizeOf ns

/-- C10 (amended): the rewriter modifies only `a`/`area` elements whose
`href` is matched by the pattern `^../` in which each dot is a regex
wildcard — any string of length at least three whose third character is
`/` (and whose first two are not newlines) is matched, even when it
does not begin with the literal `../`.  A fragment containing no such
matched link is returned unchanged, and a non-anchor element is never
itself rewritten. -/
theorem c10_frame (cwd url : String) (ns : List Node) :
    (noMatchedHref ns = true → cleanList cwd url ns = ns) ∧
    (∀ t a ch, (t == "a" || t == "area") = false →
      cleanNode cwd url (Node.elem t a ch) = [Node.elem t a (cleanList cwd url ch)]) := by
  refine ⟨cleanList_id_of_noMatch cwd url ns, fun t a ch hc => ?_⟩
  simp [cleanNode, hc]

theorem c10_witness :
    noMatchedHref
      [Node.elem "div" [] [Node.elem "a" [("href", "https://doc.qt.io/x.html")] [Node.text "x"],
        Node.elem "a" [("href", "QtCore-index.html")] [Node.text "y"]]] = true ∧
    cleanList "/w" "https://doc-snapshots.qt.io/qtforpython/PySide2/QtCore/index.html"
      [Node.elem "div" [] [Node.elem "a" [("href", "https://doc.qt.io/x.html")] [Node.text "x"],
        Node.elem "a" [("href", "QtCore-index.html")] [Node.text "y"]]]
      = [Node.elem "div" [] [Node.elem "a" [("href", "https://doc.qt.io/x.html")] [Node.text "x"],
        Node.elem "a" [("href", "QtCore-index.html")] [Node.text "y"]]] :=
  ⟨by decide,
   (c10_frame "/w" "https://doc-snapshots.qt.io/qtforpython/PySide2/QtCore/index.html"
      [Node.elem "div" [] [Node.elem "a" [("href", "https://doc.qt.io/x.html")] [Node.text "x"],
        Node.elem "a" [("href", "QtCore-index.html")] [Node.text "y"]]]).1 (by decide)⟩

/-- C10 is refuted as stated: the anchor `href` "ab/c" does not begin
with "../", yet the element is rewritten (its `href` becomes "c"),
because the regex dots match any characters. -/
theorem c10_counterexample :
    beginsWith "../" "ab/c" = false ∧
    collectHrefs
      (cleanList "/w" "https://doc-snapshots.qt.io/qtforpython/PySide2/QtCore/index.html"
        [Node.elem "a" [("href", "ab/c")] [Node.text "t"]]) = ["c"] ∧
    ("c" : String) ≠ "ab/c" :=
  ⟨by decide, by decide, by decide⟩

/-! ## C1 counterexample — a concrete crawl run -/

/-! ## C9 — re-running produces the same index table -/

theorem lookupFile_cons (w : String × String) (fl : Files) (k : String) :
    lookupFile (w :: fl) k = if (w.1 == k) = true then some w.2 else lookupFile fl k := by
  unfold lookupFile
  rw [List.find?]
  cases hw : (w.1 == k) with
  | true => simp [hw]
  | false => simp [hw]

theorem lookupFile_cons_isSome (w : String × String) (fl : Files) (k : String)
    (h : (lookupFile fl k).isSome = true) :
    (lookupFile (w :: fl) k).isSome = true := by
  rw [lookupFile_cons]
  split
  · rfl
  · exact h

theorem applyWrites_cons (fl : Files) (w : String × String) (ws : List (String × String)) :
    applyWrites fl (w :: ws) = applyWrites (w :: fl) ws := by
  simp [applyWrites, List.foldl_cons]

theorem applyWrites_isSome (ws : List (String × String)) (fl : Files) (k : String)
    (h : (lookupFile fl k).isSome = true) :
    (lookupFile (applyWrites fl ws) k).isSome = true := by
  induction ws generalizing fl with
  | nil => exact h
  | cons w rest ih =>
    rw [applyWrites_cons]
    exact ih (w :: fl) (lookupFile_cons_isSome w fl k h)

theorem postPass_table (p : Parser) (m : List String) (st : State) :
    (postPass p m st).table = st.table := by
  rw [postPass]
  split
  · rfl
  · split
    · rfl
    · split
      · rfl
      · rfl

theorem postPass_files_isSome (p : Parser) (m : List String) (st : State) (k : String)
    (h : (lookupFile st.files k).isSome = true) :
    (lookupFile (postPass p m st).files k).isSome = true := by
  rw [postPass]
  split
  · exact h
  · split
    · exact h
    · split
      · exact h
      · exact lookupFile_cons_isSome _ _ _ h

theorem runAfterCss_table (cwd : String) (f : Oracle) (p : Parser) (fl : Files) :
    (runAfterCss cwd f p fl).table
      = match download_file f arrowUrl "list_arrow.png" with
        | .error _ => init_database
        | .ok _ => applyEntries init_database (crawlPhase cwd f p).entries := by
  rw [runAfterCss]
  cases harrow : download_file f arrowUrl "list_arrow.png" with
  | error e => rfl
  | ok pr =>
    obtain ⟨b, ws⟩ := pr
    cases hres : (crawlPhase cwd f p).res with
    | error e2 => rfl
    | ok m404 => exact postPass_table p m404 _

theorem runAfterCss_files_isSome (cwd : String) (f : Oracle) (p : Parser) (fl : Files)
    (k : String) (h : (lookupFile fl k).isSome = true) :
    (lookupFile (runAfterCss cwd f p fl).files k).isSome = true := by
  rw [runAfterCss]
  cases harrow : download_file f arrowUrl "list_arrow.png" with
  | error e => exact h
  | ok pr =>
    obtain ⟨b, ws⟩ := pr
    cases hres : (crawlPhase cwd f p).res with
    | error e2 => exact applyWrites_isSome _ _ _ (applyWrites_isSome _ _ _ h)
    | ok m404 =>
      exact postPass_files_isSome _ _ _ _
        (applyWrites_isSome _ _ _ (applyWrites_isSome _ _ _ h))

theorem dcss_otherError (f : Oracle) (fl : Files) (e : String)
    (hf : f cssUrl = .otherError e) : download_css_step f fl = .error fl := by
  rw [download_css_step, download_file, hf]

theorem dcss_ok (f : Oracle) (fl : Files) (body : String) (hf : f cssUrl = .ok body) :
    download_css_step f fl
      = .ok (("main.css", stripFontFamily body ++ cssFontRule)
          :: ("main.css", body) :: fl) := by
  rw [download_css_step, download_file, hf]
  show Except.ok (("main.css", stripFontFamily body ++ cssFontRule)
      :: applyWrites fl [("main.css", body)]) = _
  rfl

theorem dcss_httpError (f : Oracle) (fl : Files) (code : Nat)
    (hf : f cssUrl = .httpError code) :
    download_css_step f fl
      = match lookupFile fl "main.css" with
        | none => .error fl
        | some css => .ok (("main.css", stripFontFamily css ++ cssFontRule) :: fl) := by
  rw [download_css_step, download_file, hf]
  rfl

/-- The index table a run produces, as a function of the oracles alone
(plus whether the stylesheet step crashed): the table is reset by
`init_database` and then receives exactly the crawl's inserts. -/
theorem runMain_table_shape (cwd : String) (f : Oracle) (p : Parser) (s : State) :
    (runMain cwd f p s).table
      = match download_css_step f s.files with
        | .error _ => init_database
        | .ok _ =>
          match download_file f arrowUrl "list_arrow.png" with
          | .error _ => init_database
          | .ok _ => applyEntries init_database (crawlPhase cwd f p).entries := by
  rw [runMain]
  split
  · rfl
  · rw [runAfterCss_table]

/-- C9: running the full process twice against a site that answers
every URL identically in both runs yields the same index table (same
rows, same row count) both times — the table is dropped and recreated
at the start of each run, so the second run's table does not depend on
what the first run left behind. -/
theorem c9_rerun_same_table (cwd : String) (f : Oracle) (p : Parser) (s : State) :
    (runMain cwd f p (runMain cwd f p s)).table = (runMain cwd f p s).table ∧
    (runMain cwd f p (runMain cwd f p s)).table.length
      = (runMain cwd f p s).table.length := by
  have hmain :
      (runMain cwd f p (runMain cwd f p s)).table = (runMain cwd f p s).table := by
    rw [runMain_table_shape cwd f p (runMain cwd f p s), runMain_table_shape cwd f p s]
    cases hc : f cssUrl with
    | otherError e =>
      rw [dcss_otherError f _ e hc, dcss_otherError f _ e hc]
    | ok body =>
      rw [dcss_ok f _ body hc, dcss_ok f _ body hc]
    | httpError code =>
      rw [dcss_httpError f _ code hc, dcss_httpError f _ code hc]
      cases hl : lookupFile s.files "main.css" with
      | none =>
        have hrun1 : runMain cwd f p s = ⟨init_database, s.files⟩ := by
          rw [runMain, dcss_httpError f _ code hc, hl]
        rw [hrun1, show (⟨init_database, s.files⟩ : State).files = s.files from rfl, hl]
      | some css =>
        have hrun1 : runMain cwd f p s
            = runAfterCss cwd f p (("main.css", stripFontFamily css ++ cssFontRule)
                :: s.files) := by
          rw [runMain, dcss_httpError f _ code hc, hl]
        have hpres : (lookupFile (runMain cwd f p s).files "main.css").isSome = true := by
          rw [hrun1]
          apply runAfterCss_files_isSome
          rw [lookupFile_cons]
          simp
        obtain ⟨css2, hl2⟩ : ∃ c2, lookupFile (runMain cwd f p s).files "main.css"
            = some c2 := by
          cases hx : lookupFile (runMain cwd f p s).files "main.css" with
          | none => rw [hx] at hpres; cases hpres
          | some c2 => exact ⟨c2, rfl⟩
        rw [hl2]
  exact ⟨hmain, by rw [hmain]⟩

/-! ## C1 — handling of a not-found module index -/

theorem collectAnchors_append (xs ys : List Node) :
    collectAnchors (xs ++ ys) = collectAnchors xs ++ collectAnchors ys := by
  induction xs with
  | nil => rfl
  | cons n rest ih => simp [collectAnchors, ih]

theorem anchorHrefContains_elem (slug t : String) (a : List (String × String))
    (ch : List Node) :
    anchorHrefContains slug (Node.elem t a ch) = (t == "a" && attrsMatchSlug slug a) := rfl

theorem mem_eraseP_of_neg' {α : Type} (p : α → Bool) (l : List α) (a : α)
    (ha : a ∈ l) (hp : p a = false) : a ∈ l.eraseP p := by
  induction l with
  | nil => cases ha
  | cons x xs ih =>
    by_cases hx : p x = true
    · rw [List.eraseP_cons_of_pos hx]
      rcases List.mem_cons.mp ha with h | h
      · subst h
        rw [hp] at hx
        cases hx
      · exact h
    · rw [List.eraseP_cons_of_neg hx]
      rcases List.mem_cons.mp ha with h | h
      · subst h
        exact List.mem_cons_self _ _
      · exact List.mem_cons_of_mem _ (ih h)

theorem countP_eraseP_le {α : Type} (p q : α → Bool) (l : List α) :
    (l.eraseP q).countP p ≤ l.countP p := by
  induction l with
  | nil => simp
  | cons x xs ih =>
    by_cases hx : q x = true
    · rw [List.eraseP_cons_of_pos hx, List.countP_cons]
      omega
    · rw [List.eraseP_cons_of_neg hx, List.countP_cons, List.countP_cons]
      omega

theorem countP_eraseP_self {α : Type} (p : α → Bool) (l : List α)
    (h : l.countP p ≤ 1) : (l.eraseP p).countP p = 0 := by
  induction l with
  | nil => simp
  | cons x xs ih =>
    rw [List.countP_cons] at h
    by_cases hx : p x = true
    · rw [List.eraseP_cons_of_pos hx]
      rw [if_pos hx] at h
      have hz : xs.countP p = 0 := by omega
      exact hz
    · rw [List.eraseP_cons_of_neg hx, List.countP_cons]
      rw [if_neg hx] at h
      have := ih (by omega)
      simp [this, hx]

theorem collectAnchorsN_elem_a (t : String) (a : List (String × String))
    (ch : List Node) (hta : (t == "a") = true) :
    collectAnchorsN (Node.elem t a ch) = a :: collectAnchors ch := by
  simp [collectAnchorsN, hta]

theorem collectAnchorsN_elem_other (t : String) (a : List (String × String))
    (ch : List Node) (hta : (t == "a") = false) :
    collectAnchorsN (Node.elem t a ch) = collectAnchors ch := by
  simp [collectAnchorsN, hta]

/- The exact effect of one post-pass unwrap on the anchor list and the
text content: the first matching anchor (pre-order) is erased from the
anchor list, everything else — in particular the text — survives. -/
mutual

theorem unwrapN_spec (slug : String) (n : Node) :
    (unwrapFirstN slug n = none →
      ∀ x ∈ collectAnchorsN n, attrsMatchSlug slug x = false) ∧
    (∀ repl, unwrapFirstN slug n = some repl →
      (∃ x ∈ collectAnchorsN n, attrsMatchSlug slug x = true) ∧
      collectAnchors repl = (collectAnchorsN n).eraseP (attrsMatchSlug slug) ∧
      textContentL repl = textContentN n) := by
  cases n with
  | text s => exact ⟨fun _ x hx => absurd hx (by simp [collectAnchorsN]), fun repl h => by
      simp [unwrapFirstN] at h⟩
  | elem t a ch =>
    have hL := unwrapL_spec slug ch
    constructor
    · intro hnone x hx
      rw [unwrapFirstN] at hnone
      by_cases hmatch : anchorHrefContains slug (Node.elem t a ch) = true
      · rw [if_pos hmatch] at hnone
        cases hnone
      · rw [if_neg hmatch] at hnone
        have hchnone : unwrapFirstL slug ch = none := by
          cases hu : unwrapFirstL slug ch with
          | none => rfl
          | some ch2 => rw [hu] at hnone; cases hnone
        have hrec := hL.1 hchnone
        cases hta : (t == "a") with
        | true =>
          rw [collectAnchorsN_elem_a t a ch hta] at hx
          rcases List.mem_cons.mp hx with h | h
          · subst h
            rw [anchorHrefContains_elem, hta] at hmatch
            simpa using hmatch
          · exact hrec x h
        | false =>
          rw [collectAnchorsN_elem_other t a ch hta] at hx
          exact hrec x hx
    · intro repl hrepl
      rw [unwrapFirstN] at hrepl
      by_cases hmatch : anchorHrefContains slug (Node.elem t a ch) = true
      · rw [if_pos hmatch] at hrepl
        have hrepl2 : repl = ch := by
          cases hrepl
          rfl
        rw [hrepl2]
        rw [anchorHrefContains_elem] at hmatch
        simp only [Bool.and_eq_true] at hmatch
        obtain ⟨hta, hmt⟩ := hmatch
        rw [collectAnchorsN_elem_a t a ch hta]
        refine ⟨⟨a, List.mem_cons_self _ _, hmt⟩, ?_, rfl⟩
        rw [List.eraseP_cons_of_pos hmt]
      · rw [if_neg hmatch] at hrepl
        cases hu : unwrapFirstL slug ch with
        | none => rw [hu] at hrepl; cases hrepl
        | some ch2 =>
          rw [hu] at hrepl
          have hrepl2 : repl = [Node.elem t a ch2] := by
            cases hrepl
            rfl
          rw [hrepl2]
          obtain ⟨hex, hanch, htext⟩ := hL.2 ch2 hu
          rw [anchorHrefContains_elem] at hmatch
          have hcoll : collectAnchors [Node.elem t a ch2]
              = collectAnchorsN (Node.elem t a ch2) := by
            rw [show collectAnchors [Node.elem t a ch2]
                = collectAnchorsN (Node.elem t a ch2) ++ collectAnchors [] from rfl]
            rw [show collectAnchors ([] : List Node) = [] from rfl, List.append_nil]
          cases hta : (t == "a") with
          | true =>
            have hpa : attrsMatchSlug slug a = false := by
              rw [hta] at hmatch
              simpa using hmatch
            refine ⟨?_, ?_, ?_⟩
            · obtain ⟨x, hx1, hx2⟩ := hex
              exact ⟨x, by
                rw [collectAnchorsN_elem_a t a ch hta]
                exact List.mem_cons_of_mem _ hx1, hx2⟩
            · rw [hcoll, collectAnchorsN_elem_a t a ch2 hta,
                collectAnchorsN_elem_a t a ch hta,
                List.eraseP_cons_of_neg (by simp [hpa]), hanch]
            · rw [show textContentL [Node.elem t a ch2]
                  = textContentL ch2 ++ textContentL [] from rfl]
              rw [show textContentL ([] : List Node) = [] from rfl, List.append_nil, htext]
              rfl
          | false =>
            refine ⟨?_, ?_, ?_⟩
            · obtain ⟨x, hx1, hx2⟩ := hex
              exact ⟨x, by rw [collectAnchorsN_elem_other t a ch hta]; exact hx1, hx2⟩
            · rw [hcoll, collectAnchorsN_elem_other t a ch2 hta,
                collectAnchorsN_elem_other t a ch hta, hanch]
            · rw [show textContentL [Node.elem t a ch2]
                  = textContentL ch2 ++ textContentL [] from rfl]
              rw [show textContentL ([] : List Node) = [] from rfl, List.append_nil, htext]
              rfl

theorem unwrapL_spec (slug : String) (ns : List Node) :
    (unwrapFirstL slug ns = none →
      ∀ x ∈ collectAnchors ns, attrsMatchSlug slug x = false) ∧
    (∀ ns2, unwrapFirstL slug ns = some ns2 →
      (∃ x ∈ collectAnchors ns, attrsMatchSlug slug x = true) ∧
      collectAnchors ns2 = (collectAnchors ns).eraseP (attrsMatchSlug slug) ∧
      textContentL ns2 = textContentL ns) := by
  cases ns with
  | nil =>
    exact ⟨fun _ x hx => absurd hx (by simp [collectAnchors]),
      fun ns2 h => by simp [unwrapFirstL] at h⟩
  | cons n rest =>
    have hN := unwrapN_spec slug n
    have hR := unwrapL_spec slug rest
    constructor
    · intro hnone x hx
      rw [unwrapFirstL] at hnone
      cases hn : unwrapFirstN slug n with
      | some repl => rw [hn] at hnone; cases hnone
      | none =>
        rw [hn] at hnone
        cases hr : unwrapFirstL slug rest with
        | some ns2 => rw [hr] at hnone; cases hnone
        | none =>
          rw [show collectAnchors (n :: rest)
              = collectAnchorsN n ++ collectAnchors rest from rfl] at hx
          rcases List.mem_append.mp hx with h | h
          · exact hN.1 hn x h
          · exact hR.1 hr x h
    · intro ns2 hns2
      rw [unwrapFirstL] at hns2
      cases hn : unwrapFirstN slug n with
      | some repl =>
        rw [hn] at hns2
        have he : ns2 = repl ++ rest := by
          cases hns2
          rfl
        subst he
        obtain ⟨⟨x, hx1, hx2⟩, hanch, htext⟩ := hN.2 repl hn
        refine ⟨⟨x, ?_, hx2⟩, ?_, ?_⟩
        · rw [show collectAnchors (n :: rest)
              = collectAnchorsN n ++ collectAnchors rest from rfl]
          exact List.mem_append_left _ hx1
        · rw [collectAnchors_append, hanch]
          rw [show collectAnchors (n :: rest)
              = collectAnchorsN n ++ collectAnchors rest from rfl]
          rw [List.eraseP_append_left hx2 _ hx1]
        · rw [textContentL_append, htext]
          rfl
      | none =>
        rw [hn] at hns2
        cases hr : unwrapFirstL slug rest with
        | none => rw [hr] at hns2; cases hns2
        | some rest2 =>
          rw [hr] at hns2
          have he : ns2 = n :: rest2 := by
            cases hns2
            rfl
          subst he
          obtain ⟨⟨x, hx1, hx2⟩, hanch, htext⟩ := hR.2 rest2 hr
          have hnon := hN.1 hn
          refine ⟨⟨x, ?_, hx2⟩, ?_, ?_⟩
          · rw [show collectAnchors (n :: rest)
                = collectAnchorsN n ++ collectAnchors rest from rfl]
            exact List.mem_append_right _ hx1
          · rw [show collectAnchors (n :: rest2)
                = collectAnchorsN n ++ collectAnchors rest2 from rfl]
            rw [show collectAnchors (n :: rest)
                = collectAnchorsN n ++ collectAnchors rest from rfl]
            rw [List.eraseP_append_right _ (fun b hb => by simp [hnon b hb]), hanch]
          · rw [show textContentL (n :: rest2)
                = textContentN n ++ textContentL rest2 from rfl]
            rw [show textContentL (n :: rest)
                = textContentN n ++ textContentL rest from rfl]
            rw [htext]

end

theorem unwrapAll_textContent (slugs : List String) (T T2 : List Node)
    (h : unwrapAll slugs T = some T2) : textContentL T2 = textContentL T := by
  induction slugs generalizing T with
  | nil =>
    rw [unwrapAll] at h
    cases h
    rfl
  | cons slug rest ih =>
    rw [unwrapAll] at h
    cases hu : unwrapFirstL slug T with
    | none => rw [hu] at h; cases h
    | some T1 =>
      rw [hu] at h
      have h1 := (unwrapL_spec slug T).2 T1 hu
      rw [ih T1 h, h1.2.2]

theorem unwrapAll_mem_of_unmatched (slugs : List String) (T T2 : List Node)
    (a : List (String × String)) (h : unwrapAll slugs T = some T2)
    (ha : a ∈ collectAnchors T) (hnm : ∀ s ∈ slugs, attrsMatchSlug s a = false) :
    a ∈ collectAnchors T2 := by
  induction slugs generalizing T with
  | nil =>
    rw [unwrapAll] at h
    cases h
    exact ha
  | cons slug rest ih =>
    rw [unwrapAll] at h
    cases hu : unwrapFirstL slug T with
    | none => rw [hu] at h; cases h
    | some T1 =>
      rw [hu] at h
      have h1 := (unwrapL_spec slug T).2 T1 hu
      refine ih T1 h ?_ (fun s hs => hnm s (List.mem_cons_of_mem _ hs))
      rw [h1.2.1]
      exact mem_eraseP_of_neg' _ _ a ha (hnm slug (List.mem_cons_self _ _))

theorem unwrapAll_countP_le (p : List (String × String) → Bool) (slugs : List String)
    (T T2 : List Node) (h : unwrapAll slugs T = some T2) :
    (collectAnchors T2).countP p ≤ (collectAnchors T).countP p := by
  induction slugs generalizing T with
  | nil =>
    rw [unwrapAll] at h
    cases h
    exact le_refl _
  | cons slug rest ih =>
    rw [unwrapAll] at h
    cases hu : unwrapFirstL slug T with
    | none => rw [hu] at h; cases h
    | some T1 =>
      rw [hu] at h
      have h1 := (unwrapL_spec slug T).2 T1 hu
      calc (collectAnchors T2).countP p ≤ (collectAnchors T1).countP p := ih T1 h
        _ ≤ (collectAnchors T).countP p := by
            rw [h1.2.1]
            exact countP_eraseP_le _ _ _

theorem unwrapAll_removes (slugs : List String) (T T2 : List Node) (s : String)
    (hs : s ∈ slugs) (hcount : (collectAnchors T).countP (attrsMatchSlug s) ≤ 1)
    (h : unwrapAll slugs T = some T2) :
    (collectAnchors T2).countP (attrsMatchSlug s) = 0 := by
  induction slugs generalizing T with
  | nil => cases hs
  | cons slug rest ih =>
    rw [unwrapAll] at h
    cases hu : unwrapFirstL slug T with
    | none => rw [hu] at h; cases h
    | some T1 =>
      rw [hu] at h
      have h1 := (unwrapL_spec slug T).2 T1 hu
      by_cases hss : s = slug
      · subst hss
        have hz : (collectAnchors T1).countP (attrsMatchSlug s) = 0 := by
          rw [h1.2.1]
          exact countP_eraseP_self _ _ hcount
        have := unwrapAll_countP_le (attrsMatchSlug s) rest T1 T2 h
        omega
      · rcases List.mem_cons.mp hs with hcon | hmem
        · exact absurd hcon hss
        · refine ih T1 hmem ?_ h
          calc (collectAnchors T1).countP (attrsMatchSlug s)
              ≤ (collectAnchors T).countP (attrsMatchSlug s) := by
                rw [h1.2.1]
                exact countP_eraseP_le _ _ _
            _ ≤ 1 := hcount

/-- C1 (amended): a module whose index fetch returns not-found
contributes no file writes and no index entries and is recorded in
`modules_in_404`.  In the post-pass, for each recorded slug the *first*
anchor of the saved root page whose `href` *contains* the slug is
unwrapped with its text kept; consequently, provided the anchor whose
`href` contains an unavailable module's slug is unique, that module's
link is removed, and every anchor matching none of the recorded slugs
(in particular every sibling link not containing any such slug)
survives, with the page's text content unchanged.  Without the
uniqueness proviso the claim fails — see the counterexample, where the
first anchor containing the slug belongs to a successfully fetched
sibling. -/
theorem c1_not_found_module :
    (∀ cwd f p slug code, f (moduleIndexUrl slug) = UrlResult.httpError code →
      processModule cwd f p slug = ⟨[], [], .ok true⟩) ∧
    (∀ slugs T T2, unwrapAll slugs T = some T2 →
      textContentL T2 = textContentL T) ∧
    (∀ slugs T T2 a, unwrapAll slugs T = some T2 → a ∈ collectAnchors T →
      (∀ s ∈ slugs, attrsMatchSlug s a = false) → a ∈ collectAnchors T2) ∧
    (∀ slugs T T2 s, unwrapAll slugs T = some T2 → s ∈ slugs →
      (collectAnchors T).countP (attrsMatchSlug s) = 1 →
      (collectAnchors T2).countP (attrsMatchSlug s) = 0) := by
  refine ⟨?_, ?_, ?_, ?_⟩
  · intro cwd f p slug code hf
    simp [processModule, parse_module_index_page, do_request, hf, Bind.bind, Eff.bindE,
      Eff.pureE, pure]
  · exact fun slugs T T2 h => unwrapAll_textContent slugs T T2 h
  · exact fun slugs T T2 a h ha hnm => unwrapAll_mem_of_unmatched slugs T T2 a h ha hnm
  · exact fun slugs T T2 s h hs hc => unwrapAll_removes slugs T T2 s hs (by omega) h

theorem c1_witness :
    cexOracle (moduleIndexUrl "NoSuchModule") = UrlResult.httpError 404 ∧
    processModule "/w" cexOracle cexParser "NoSuchModule" = ⟨[], [], .ok true⟩ ∧
    unwrapAll ["Qt"] cexParsedRoot
      = some [Node.elem "html" [("lang", "en")] [
          Node.elem "head" [] [Node.elem "title" [] [Node.text "QtHome"]],
          Node.elem "body" [] [
            Node.elem "div" [("class", "bodywrapper")] [
              Node.elem "div" [("id", "qt-modules")] [],
              Node.text "QtCore",
              Node.elem "a" [("class", "external"), ("href", "Qt-index.html")] [Node.text "Qt"]]]]] := by
  refine ⟨by decide, ?_, by rfl⟩
  exact (c1_not_found_module.1) "/w" cexOracle cexParser "NoSuchModule" 404 (by decide)

set_option maxRecDepth 100000 in
/-- C1 is refuted as stated: in the concrete run `cexFinal`, module
`Qt` is not found (404) while its sibling `QtCore` is fetched and
indexed, yet the final saved root page still contains the link to the
unavailable `Qt` module and has lost the link of the successfully
fetched sibling `QtCore` — the post-pass `find(href=re.compile(slug))`
unwraps the *first* anchor whose `href` merely *contains* the slug. -/
theorem c1_counterexample :
    cexOracle (moduleIndexUrl "Qt") = .httpError 404 ∧
    cexOracle (moduleIndexUrl "QtCore") = .ok "QTCOREHTML" ∧
    cexFinal.table = [Entry.mk "QtCore" "Module" "QtCore-index.html"] ∧
    inStr "href=\x22Qt-index.html\x22" cexFinalRoot = true ∧
    inStr "href=\x22QtCore-index.html\x22" cexFinalRoot = false := by
  refine ⟨by decide, by decide, ?_, ?_, ?_⟩ <;> decide

/-! ## C5 — fragment stripping on inheritance links -/

theorem splitChar_headD (sep : Char) (l : List Char) :
    (splitChar sep l).headD [] = l.takeWhile (fun c => !(c == sep)) := by
  induction l with
  | nil => rfl
  | cons c cs ih =>
    simp only [splitChar]
    by_cases hc : c = sep
    · subst hc
      simp [List.takeWhile_cons]
    · rw [if_neg hc]
      cases h : splitChar sep cs with
      | nil => exact absurd h (splitChar_ne_nil sep cs)
      | cons t ts =>
        have ht : t = cs.takeWhile (fun c => !(c == sep)) := by
          rw [← ih, h]
          rfl
        simp [List.takeWhile_cons, hc, ht]

theorem mem_split_first (c : Char) (l : List Char) (h : c ∈ l) :
    ∃ t, l = l.takeWhile (fun x => !(x == c)) ++ c :: t := by
  induction l with
  | nil => cases h
  | cons a as ih =>
    by_cases hac : a = c
    · subst hac
      exact ⟨as, by simp [List.takeWhile_cons]⟩
    · have hin : c ∈ as := by
        rcases List.mem_cons.mp h with h1 | h2
        · exact absurd h1.symm hac
        · exact h2
      obtain ⟨t, ht⟩ := ih hin
      refine ⟨t, ?_⟩
      simp only [List.takeWhile_cons, hac]
      simp only [show (!(a == c)) = true by simp [hac], if_true, List.cons_append,
        List.cons.injEq, true_and]
      exact ht

/-- C5: an inheritance cross-reference link whose target contains an
in-page fragment identifier has the identifier removed — the rewritten
target is exactly the part of the original target before the first
`#`, it contains no `#` itself, and the sibling rewrite installs it as
the link's `href`. -/
theorem c5_fragment_strip (h : String) (hmem : '#' ∈ h.data) :
    (∃ frag, h = stripFragment h ++ "#" ++ frag ∧ '#' ∉ (stripFragment h).data) ∧
    (∀ a ch, getAttr a "href" = some h →
      stripAnchorsL [Node.elem "a" a ch]
        = .ok [Node.elem "a" (setAttr a "href" (stripFragment h)) ch]) := by
  have hsf : (stripFragment h).data = h.data.takeWhile (fun c => !(c == '#')) :=
    splitChar_headD '#' h.data
  constructor
  · obtain ⟨t, ht⟩ := mem_split_first '#' h.data hmem
    refine ⟨⟨t⟩, ?_, ?_⟩
    · apply String.ext
      rw [String.data_append, String.data_append, hsf]
      simpa using ht
    · intro hc
      rw [hsf] at hc
      have := List.mem_takeWhile_imp hc
      simp at this
  · intro a ch ha
    simp [stripAnchorsL, ha]

theorem c5_witness :
    '#' ∈ "QWidget.html#details".data ∧
    stripFragment "QWidget.html#details" = "QWidget.html" ∧
    (∃ frag, "QWidget.html#details" = stripFragment "QWidget.html#details" ++ "#" ++ frag ∧
      '#' ∉ (stripFragment "QWidget.html#details").data) ∧
    stripAnchorsL [Node.elem "a" [("href", "QWidget.html#details")] []]
      = .ok [Node.elem "a" [("href", "QWidget.html")] []] := by
  have hc5 := c5_fragment_strip "QWidget.html#details" (by decide)
  refine ⟨by decide, by decide, hc5.1, ?_⟩
  rw [hc5.2 [("href", "QWidget.html#details")] [] rfl]
  rfl

theorem c4_witness :
    classifyType "ClickEvent" = "Event" ∧ classifyType "SomeInterface" = "Interface" ∧
    classifyType "XEnum" = "Enum" ∧ classifyType "QWidget" = "Class" :=
  ⟨(c4_classify "ClickEvent").1 (by decide),
   (c4_classify "SomeInterface").2.1 (by decide),
   (c4_classify "XEnum").2.2.1 (by decide),
   (c4_classify "QWidget").2.2.2 (by decide) (by decide) (by decide)⟩

end Docset
